import Mathlib

/-!
Verification of the telemetry sampling, alignment and comparative-analysis
engine of the MBCAS measurement harness (Python sources under `src/`).

The Python code is shallowly embedded: strings are `String`/`List Char`,
Python integers are `ℤ`, Python floats are modelled as exact rationals
rounded to 53-bit significands (IEEE-754 binary64 round-to-nearest-even,
normal range; the magnitudes appearing here never reach the subnormal or
overflow ranges), and functions that can raise return `Except Unit` or
`Option`. String primitives (`strip`, `int()`, `float()`) are modelled for
ASCII input, covering Python's sign handling, surrounding whitespace and
underscore digit separators; decimal `float` literals are modelled without
the exponent/`inf`/`nan` forms, which none of the analysed call sites feed.
-/

/-! ## Python string and number primitives -/

/-- ASCII whitespace recognised by Python's `str.strip`. -/
def isPySpace (c : Char) : Bool :=
  c = ' ' ∨ c = '\t' ∨ c = '\n' ∨ c = '\r' ∨ c = '\x0b' ∨ c = '\x0c'

/-- `str.strip()` on a character list: drop whitespace at both ends. -/
def pyStripList (l : List Char) : List Char :=
  ((l.dropWhile isPySpace).reverse.dropWhile isPySpace).reverse

/-- ASCII decimal digit test. -/
def isDigitC (c : Char) : Bool :=
  48 ≤ c.toNat ∧ c.toNat ≤ 57

/-- Numeric value of an ASCII digit. -/
def digitValC (c : Char) : ℕ := c.toNat - 48

/-- Digits continuing a Python digit group: further digits, with single
underscores allowed between digits (`1_000`), never doubled or trailing. -/
def pyDigitsSeqAux : List Char → Option (List ℕ)
  | [] => some []
  | '_' :: c :: rest =>
      if isDigitC c then (pyDigitsSeqAux rest).map (digitValC c :: ·) else none
  | '_' :: [] => none
  | c :: rest =>
      if isDigitC c then (pyDigitsSeqAux rest).map (digitValC c :: ·) else none

/-- A nonempty Python digit sequence (with underscore separators), returned
as the list of digit values; `none` when the text is not such a sequence. -/
def pyDigitsSeq : List Char → Option (List ℕ)
  | [] => none
  | c :: rest =>
      if isDigitC c then (pyDigitsSeqAux rest).map (digitValC c :: ·) else none

/-- Value of a big-endian digit list. -/
def natOfDigits (l : List ℕ) : ℕ := l.foldl (fun a d => a * 10 + d) 0

/-- Python `int(s)` for ASCII text: optional surrounding whitespace,
optional sign, then a digit sequence; `none` models `ValueError`. -/
def pyIntOfStr (s : String) : Option ℤ :=
  match pyStripList s.data with
  | '+' :: rest => (pyDigitsSeq rest).map (fun ds => (natOfDigits ds : ℤ))
  | '-' :: rest => (pyDigitsSeq rest).map (fun ds => -(natOfDigits ds : ℤ))
  | l => (pyDigitsSeq l).map (fun ds => (natOfDigits ds : ℤ))

/-- Exact value of an unsigned decimal literal (`10`, `10.`, `.5`, `1.25`)
as an unreduced fraction numerator/denominator; `none` when malformed.
A second `.` makes the digit check fail. -/
def pyFloatMagParts (l : List Char) : Option (ℕ × ℕ) :=
  match l.span (· ≠ '.') with
  | (ip, []) => (pyDigitsSeq ip).map (fun ds => (natOfDigits ds, 1))
  | (ip, _ :: fp) =>
    match ip, fp with
    | [], [] => none
    | [], _ =>
        (pyDigitsSeq fp).map (fun ds => (natOfDigits ds, 10 ^ ds.length))
    | _, [] => (pyDigitsSeq ip).map (fun ds => (natOfDigits ds, 1))
    | _, _ =>
      match pyDigitsSeq ip, pyDigitsSeq fp with
      | some a, some b =>
          some (natOfDigits a * 10 ^ b.length + natOfDigits b, 10 ^ b.length)
      | _, _ => none

/-- Signed Python decimal `float` literal: sign flag plus the exact
magnitude fraction. -/
def pyFloatLitParts (s : String) : Option (Bool × ℕ × ℕ) :=
  match pyStripList s.data with
  | '+' :: rest => (pyFloatMagParts rest).map (fun p => (false, p))
  | '-' :: rest => (pyFloatMagParts rest).map (fun p => (true, p))
  | l => (pyFloatMagParts l).map (fun p => (false, p))

/-- Floor base-2 logarithm of a natural number, by fuel recursion so the
kernel can evaluate it. -/
def nlog2Aux : ℕ → ℕ → ℕ
  | 0, _ => 0
  | fuel + 1, n => if n ≤ 1 then 0 else nlog2Aux fuel (n / 2) + 1

/-- Floor base-2 logarithm (`nlog2 1 = 0`, `nlog2 2 = 1`, `nlog2 3 = 1`). -/
def nlog2 (n : ℕ) : ℕ := nlog2Aux n n

/-- Ceiling base-2 logarithm of a positive natural, by fuel recursion
(smallest `k` with `n ≤ 2 ^ k`). -/
def nclog2Aux : ℕ → ℕ → ℕ
  | 0, _ => 0
  | fuel + 1, n => if n ≤ 1 then 0 else nclog2Aux fuel ((n + 1) / 2) + 1

/-- Ceiling base-2 logarithm of a natural number. -/
def nclog2 (n : ℕ) : ℕ := nclog2Aux n n

/-- Ceiling division of naturals. -/
def ceilDivN (a b : ℕ) : ℕ := (a + b - 1) / b

/-- Binade exponent of the positive fraction `num/den`:
the `e` with `2^e ≤ num/den < 2^(e+1)`. -/
def binadeExp (num den : ℕ) : ℤ :=
  if den ≤ num then (nlog2 (num / den) : ℤ)
  else -(nclog2 (ceilDivN den num) : ℤ)

/-- Round the positive fraction `num/den` to 53 significant bits, ties to
even — the IEEE-754 binary64 value nearest to it (normal range) — returned
as a fraction whose denominator is a power of two. -/
def rnd53mag (num den : ℕ) : ℕ × ℕ :=
  let e := binadeExp num den
  let s := 52 - e
  let sn := if 0 ≤ s then num * 2 ^ s.toNat else num
  let sd := if 0 ≤ s then den else den * 2 ^ (-s).toNat
  let n := sn / sd
  let rem := sn % sd
  let n' :=
    if 2 * rem < sd then n
    else if sd < 2 * rem then n + 1
    else if n % 2 = 0 then n else n + 1
  let t := e - 52
  if 0 ≤ t then (n' * 2 ^ t.toNat, 1) else (n', 2 ^ (-t).toNat)

/-- Python `int(float_of(num/den) * 1000)` for a nonnegative exact decimal
value `num/den`: round to binary64, multiply by 1000 with a second
binary64 rounding, truncate. -/
def floatMilliMag (num den : ℕ) : ℕ :=
  if num = 0 then 0
  else
    let p1 := rnd53mag num den
    let p2 := rnd53mag (p1.1 * 1000) p1.2
    p2.1 / p2.2

/-! ## Quantity parsers

`parse_cpu_to_milli` (src/test/idle/track_idle_pod.py, lines 91-104) and
`parse_cpu` (src/test/idle/track_vpa_pod.py, lines 106-119) are the same
code up to the caught exception class. The milli-suffix branch
`int(cpu[:-1])` sits outside the `try`, so its `ValueError` escapes; the
decimal branch `int(float(cpu) * 1000)` is wrapped and falls back to 0.
`float(cpu)` rounds the literal to binary64 and the multiplication by 1000
rounds again, hence the two `rnd53` applications. -/

instance : DecidableEq (Except Unit ℤ) := fun a b =>
  match a, b with
  | .ok x, .ok y =>
      if h : x = y then .isTrue (by rw [h]) else .isFalse (by simp [h])
  | .error x, .error y => .isTrue (by cases x; cases y; rfl)
  | .ok _, .error _ => .isFalse Except.noConfusion
  | .error _, .ok _ => .isFalse Except.noConfusion

def parse_cpu_to_milli (cpu : String) : Except Unit ℤ :=
  if cpu = "" ∨ cpu = "N/A" then .ok 0
  else
    let c := pyStripList cpu.data
    if c.getLast? = some 'm' then
      match pyIntOfStr (String.mk c.dropLast) with
      | some n => .ok n
      | none => .error ()
    else
      match pyFloatLitParts (String.mk c) with
      | some (neg, num, den) =>
          .ok (if neg then -(floatMilliMag num den : ℤ)
               else (floatMilliMag num den : ℤ))
      | none => .ok 0

/-- `parse_cpu` in src/test/idle/track_vpa_pod.py is the identical
algorithm (its bare `except` behaves like `except Exception` here). -/
def parse_cpu (v : String) : Except Unit ℤ := parse_cpu_to_milli v

/-- `str.rstrip("m")`: drop every trailing `'m'`. -/
def rstripM (l : List Char) : List Char :=
  (l.reverse.dropWhile (· = 'm')).reverse

/-- `to_milli` from src/scripts/inspect_artifacts.py, lines 139-143:
`int(v.rstrip("m"))` with any exception recovered as 0. -/
def to_milli (v : String) : ℤ :=
  match pyIntOfStr (String.mk (rstripM v.data)) with
  | some n => n
  | none => 0

/-! ## Timestamp parser

`parse_iso` (src/scripts/inspect_artifacts.py lines 25-32, identical in
src/scripts/visualize_artifacts.py lines 29-35) drops everything after the
first `+`, then everything after the first `.`, and hands the remainder to
`datetime.strptime(ts, "%Y-%m-%dT%H:%M:%S")`. The `strptime` model below
reproduces CPython's behaviour for that format on ASCII input: each `%`
directive consumes a maximal digit run (the format's separators are
non-digits, so maximal munch coincides with the regex semantics), `%Y`
needs exactly 4 digits, the other fields 1-2 digits, the full string must
be consumed, and the `datetime` constructor's range checks (year ≥ 1,
month/day/hour/minute/second ranges, day vs. month length) must pass.
CPython compiles the format case-insensitively, so the literal `T` also
accepts `t`. -/

structure PyDateTime where
  year : ℕ
  month : ℕ
  day : ℕ
  hour : ℕ
  minute : ℕ
  second : ℕ
deriving DecidableEq, Repr

/-- Gregorian leap-year rule used by `datetime`. -/
def isLeapYear (y : ℕ) : Bool :=
  (y % 4 = 0 ∧ y % 100 ≠ 0) ∨ y % 400 = 0

/-- Number of days in a month. -/
def daysInMonth (y m : ℕ) : ℕ :=
  if m = 2 then (if isLeapYear y then 29 else 28)
  else if m = 4 ∨ m = 6 ∨ m = 9 ∨ m = 11 then 30
  else 31

/-- Numeric value of a digit string. -/
def valOf (l : List Char) : ℕ := natOfDigits (l.map digitValC)

/-- Consume the year field: exactly 4 digits, value ≥ 1 (the `datetime`
constructor rejects year 0). -/
def readYear (l : List Char) : Option (ℕ × List Char) :=
  let ds := l.takeWhile isDigitC
  if ds.length = 4 ∧ 1 ≤ valOf ds then some (valOf ds, l.dropWhile isDigitC)
  else none

/-- Consume a 1-2 digit field whose value must lie in `[lo, hi]`. -/
def readNum2 (lo hi : ℕ) (l : List Char) : Option (ℕ × List Char) :=
  let ds := l.takeWhile isDigitC
  if 1 ≤ ds.length ∧ ds.length ≤ 2 ∧ lo ≤ valOf ds ∧ valOf ds ≤ hi then
    some (valOf ds, l.dropWhile isDigitC)
  else none

/-- Consume one expected literal character. -/
def expectChar (c : Char) : List Char → Option (List Char)
  | x :: rest => if x = c then some rest else none
  | [] => none

/-- Consume the date/time separator, case-insensitively (`T` or `t`). -/
def expectT : List Char → Option (List Char)
  | x :: rest => if x = 'T' ∨ x = 't' then some rest else none
  | [] => none

/-- Model of `datetime.strptime(s, "%Y-%m-%dT%H:%M:%S")`: `none` models
the `ValueError` raised on a mismatch or an invalid calendar date. -/
def strptimeYmdHms (l : List Char) : Option PyDateTime :=
  (readYear l).bind fun p1 =>
  (expectChar '-' p1.2).bind fun r2 =>
  (readNum2 1 12 r2).bind fun p2 =>
  (expectChar '-' p2.2).bind fun r4 =>
  (readNum2 1 31 r4).bind fun p3 =>
  (expectT p3.2).bind fun r6 =>
  (readNum2 0 23 r6).bind fun p4 =>
  (expectChar ':' p4.2).bind fun r8 =>
  (readNum2 0 59 r8).bind fun p5 =>
  (expectChar ':' p5.2).bind fun r10 =>
  (readNum2 0 59 r10).bind fun p6 =>
  if p6.2 = [] ∧ p3.1 ≤ daysInMonth p1.1 p2.1 then
    some ⟨p1.1, p2.1, p3.1, p4.1, p5.1, p6.1⟩
  else none

/-- Python `ts.split(sep)[0]`: the prefix before the first occurrence of
`sep`. When `sep` does not occur this is the whole string, which also
covers the `if sep in ts` guards in the source. -/
def splitHead (sep : Char) (l : List Char) : List Char :=
  l.takeWhile (fun c => !(c == sep))

/-- `parse_iso` from src/scripts/inspect_artifacts.py lines 25-32. -/
def parse_iso (ts : String) : Option PyDateTime :=
  strptimeYmdHms (splitHead '.' (splitHead '+' ts.data))

/-- Truncation as the spec words it: keep everything before the first
literal `+` and before the first literal `.` of the original string. -/
def specTruncate (l : List Char) : List Char :=
  l.takeWhile (fun c => !(c == '+') && !(c == '.'))

/-- A list of ASCII digits. -/
def DigitStr (l : List Char) : Prop := ∀ c ∈ l, isDigitC c = true

/-- The spec-side reading of "the `YYYY-MM-DDTHH:MM:SS` pattern", stated
independently of the parser: the string decomposes into digit groups
joined by the literal separators, with the field widths, ranges and
calendar validity of a real timestamp, and `dt` is the denoted instant. -/
def SpecIsoShape (l : List Char) (dt : PyDateTime) : Prop :=
  ∃ ys ms ds hs mis ses : List Char, ∃ tc : Char,
    l = ys ++ ('-' :: (ms ++ ('-' :: (ds ++ (tc :: (hs ++ (':' :: (mis ++ (':' :: ses))))))))) ∧
    (tc = 'T' ∨ tc = 't') ∧
    DigitStr ys ∧ ys.length = 4 ∧
    DigitStr ms ∧ 1 ≤ ms.length ∧ ms.length ≤ 2 ∧
    DigitStr ds ∧ 1 ≤ ds.length ∧ ds.length ≤ 2 ∧
    DigitStr hs ∧ 1 ≤ hs.length ∧ hs.length ≤ 2 ∧
    DigitStr mis ∧ 1 ≤ mis.length ∧ mis.length ≤ 2 ∧
    DigitStr ses ∧ 1 ≤ ses.length ∧ ses.length ≤ 2 ∧
    dt = ⟨valOf ys, valOf ms, valOf ds, valOf hs, valOf mis, valOf ses⟩ ∧
    1 ≤ dt.year ∧ 1 ≤ dt.month ∧ dt.month ≤ 12 ∧
    1 ≤ dt.day ∧ dt.day ≤ daysInMonth dt.year dt.month ∧
    dt.hour ≤ 23 ∧ dt.minute ≤ 59 ∧ dt.second ≤ 59

/-! ## Change detection

src/test/idle/visualize_metrics.py lines 172-192 and
src/test/idle/compare_mbcas_vpa.py lines 135-138 / 271-291 iterate the
sample list pairwise and record a change whenever the stored parsed
milli-unit limit differs between consecutive samples. A sample carries
both the raw limit string and its parsed value; only the parsed value is
compared. -/

structure MSample where
  elapsed : ℤ
  rawLimit : String
  limit_m : ℤ
deriving DecidableEq, Repr

structure ChangeEvent where
  time : ℤ
  fromL : ℤ
  toL : ℤ
  delta : ℤ
deriving DecidableEq, Repr

/-- The `for i in range(1, len(samples))` loop of `print_statistics`,
appending one event per consecutive pair with differing parsed limits. -/
def detectChanges : List MSample → List ChangeEvent
  | a :: b :: rest =>
      (if b.limit_m ≠ a.limit_m then
        [⟨b.elapsed, a.limit_m, b.limit_m, b.limit_m - a.limit_m⟩]
       else []) ++ detectChanges (b :: rest)
  | _ => []

/-- `len(changes)` — the printed "Total Changes". -/
def changeCount (l : List MSample) : ℕ := (detectChanges l).length

/-- `changes[0]['time']` when any change exists — the "First Change". -/
def firstChangeTime (l : List MSample) : Option ℤ :=
  ((detectChanges l).head?).map (·.time)

/-- Change detection as the spec words it: pairwise over consecutive
samples, an event exactly when the parsed values differ. -/
def specChanges (l : List MSample) : List ChangeEvent :=
  (l.zip l.tail).filterMap (fun p =>
    if p.2.limit_m ≠ p.1.limit_m then
      some ⟨p.2.elapsed, p.1.limit_m, p.2.limit_m, p.2.limit_m - p.1.limit_m⟩
    else none)

/-- Replace the raw limit string of a sample (the parsed field is kept). -/
def setRaw (f : MSample → String) (s : MSample) : MSample :=
  { s with rawLimit := f s }

/-! ## Efficiency metrics

`calculate_efficiency` from src/test/benchmark/analyze_metrics.py lines
31-45. Python float arithmetic on these aggregate values is modelled with
exact rationals; the branch structure and the sign facts proved about it
are rounding-independent. -/

structure Efficiency where
  request_utilization_pct : ℚ
  limit_utilization_pct : ℚ
  overhead_pct : ℚ
deriving DecidableEq, Repr

def calculate_efficiency (avg_usage final_request final_limit : ℚ) :
    Efficiency where
  request_utilization_pct :=
    if 0 < final_request then avg_usage / final_request * 100 else 0
  limit_utilization_pct :=
    if 0 < final_limit then avg_usage / final_limit * 100 else 0
  overhead_pct :=
    if 0 < final_limit then (final_limit - avg_usage) / final_limit * 100
    else 0

/-! ## Run-level usage and utilization statistics

src/test/idle/visualize_metrics.py lines 195-221. The list comprehensions
filter the samples before aggregating. -/

structure VSample where
  usage_m : ℤ
  limit_m : ℤ
deriving DecidableEq, Repr

/-- `[s['usage_milli'] for s in samples if s['usage_milli'] > 0]`. -/
def usage_values : List VSample → List ℤ
  | [] => []
  | s :: rest =>
      if 0 < s.usage_m then s.usage_m :: usage_values rest
      else usage_values rest

/-- The efficiency comprehension: samples with `limit_milli > 0 and
usage_milli > 0`, each contributing `usage / limit * 100`. -/
def efficiency_values : List VSample → List ℚ
  | [] => []
  | s :: rest =>
      if 0 < s.limit_m ∧ 0 < s.usage_m then
        ((s.usage_m : ℚ) / (s.limit_m : ℚ) * 100) :: efficiency_values rest
      else efficiency_values rest

/-- Mean of a value list, `none` when the list is empty (the source guards
with `if efficiency_samples:`). -/
def avgQ (l : List ℚ) : Option ℚ :=
  if l = [] then none else some (l.sum / (l.length : ℚ))

/-- The utilization sample set as the claim words it: every sample with a
positive denominator contributes, including those with zero usage. -/
def specUtilValues (l : List VSample) : List ℚ :=
  (l.filter (fun s => 0 < s.limit_m)).map
    (fun s => (s.usage_m : ℚ) / (s.limit_m : ℚ) * 100)

/-! ## Sampling loop

The collection loops of src/test/idle/track_idle_pod.py lines 382-402 and
src/test/idle/track_vpa_pod.py lines 426-442: `iterations = duration //
interval`; iteration `i` appends a sample with `elapsed = (i+1)*interval`
and sleeps for `interval` seconds unless it is the last iteration
(`if i < iterations - 1`). The recursion below carries the current index
`i` and the remaining iteration count `r` (so `r ≥ 1` iff `i <
iterations - 1` at the point of the sleep test). -/

inductive Tick where
  | sample (elapsed : ℕ)
  | sleep (dur : ℕ)
deriving DecidableEq, Repr

def loopTicksAux (interval : ℕ) : ℕ → ℕ → List Tick
  | _, 0 => []
  | i, r + 1 =>
      Tick.sample ((i + 1) * interval) ::
        (if r = 0 then [] else
          Tick.sleep interval :: loopTicksAux interval (i + 1) r)

/-- The full event trace of the sampling loop: one sample per iteration,
one sleep between consecutive iterations. -/
def loopTicks (duration interval : ℕ) : List Tick :=
  loopTicksAux interval 0 (duration / interval)

/-- The elapsed values of the appended samples, in order. -/
def samplesList (duration interval : ℕ) : List ℕ :=
  (List.range (duration / interval)).map (fun i => (i + 1) * interval)

/-- Interleaving of a sample sequence with sleeps, as the spec describes
the loop: suspend between consecutive iterations, not after the last. -/
def sampleTrace (interval : ℕ) : List ℕ → List Tick
  | [] => []
  | [e] => [Tick.sample e]
  | e :: rest => Tick.sample e :: Tick.sleep interval :: sampleTrace interval rest

/-! ## Persistence before teardown

The `try/except KeyboardInterrupt/finally` epilogue of the trackers
(src/test/idle/track_idle_pod.py lines 405-419, src/test/idle/
track_vpa_pod.py lines 445-458): the loop may be cut short by an
interrupt (`intr = some j` models an interrupt arriving during iteration
`j`, after `j` samples were appended); the `finally` block then records
the end timestamp, serializes the run, and only afterwards — and only
when cleanup is not suppressed — tears the fixture down. -/

inductive MainEv where
  | sample (elapsed : ℕ)
  | persist (count : ℕ) (hasEnd : Bool)
  | teardown
deriving DecidableEq, Repr

/-- The sampling loop with a possible interrupt: index `i`, remaining
count `r`; an interrupt during iteration `j` stops before appending
sample `j`. Returns the elapsed values actually collected. -/
def collectLoop (interval : ℕ) (intr : Option ℕ) : ℕ → ℕ → List ℕ
  | _, 0 => []
  | i, r + 1 =>
      if intr = some i then []
      else (i + 1) * interval :: collectLoop interval intr (i + 1) r

/-- Event trace of `main`'s collection epilogue: collected samples, then
the `finally` block — persist (with the end timestamp and everything
collected so far), then teardown unless `--no-cleanup`. -/
def mainTrace (duration interval : ℕ) (intr : Option ℕ)
    (noCleanup : Bool) : List MainEv :=
  let collected := collectLoop interval intr 0 (duration / interval)
  (collected.map MainEv.sample)
    ++ MainEv.persist collected.length true
    :: (if noCleanup then [] else [MainEv.teardown])

/-! ## Alignment

`align_runs` from src/scripts/inspect_artifacts.py lines 152-177, per
primary (load) run: keep the monitor runs that started no later than the
primary, pick the one with the latest start (Python's `max` keeps the
first maximum), build `(abs delta, delta, sample)` entries for every
sample whose timestamp parses (instants are modelled by their integer
second timeline), stably sort by the absolute delta and keep the first
three. Python's `sorted` is stable, and a stable sort by one key is
extensionally unique, so the insertion sort below is a faithful model. -/

structure MonSample where
  iter : ℤ
  ts : Option ℤ
deriving DecidableEq, Repr

structure MonRun where
  rid : ℕ
  started : ℤ
  samples : List MonSample
deriving DecidableEq, Repr

/-- Python `max(candidates, key=lambda mr: mr.started)` on a nonempty
list: the first element attaining the maximal key. -/
def pyMaxByStarted (c : MonRun) (cs : List MonRun) : MonRun :=
  cs.foldl (fun acc x => if acc.started < x.started then x else acc) c

structure WinEntry where
  absd : ℤ
  delta : ℤ
  s : MonSample
deriving DecidableEq, Repr

/-- The `(abs(delta), delta, sample)` tuples, skipping samples whose
timestamp does not parse (the `except: continue`). -/
def windowEntries (lrStarted : ℤ) (samples : List MonSample) :
    List WinEntry :=
  samples.filterMap (fun s =>
    (s.ts).map (fun t => ⟨|t - lrStarted|, t - lrStarted, s⟩))

/-- Stable insertion by absolute delta: an element goes before the first
existing element with a key not smaller than its own. -/
def insertByAbsd (x : WinEntry) : List WinEntry → List WinEntry
  | [] => [x]
  | y :: ys => if x.absd ≤ y.absd then x :: y :: ys else y :: insertByAbsd x ys

/-- Stable sort by absolute delta (insertion sort, extensionally equal to
Python's stable `sorted(window, key=lambda x: x[0])`). -/
def sortByAbsd : List WinEntry → List WinEntry
  | [] => []
  | x :: xs => insertByAbsd x (sortByAbsd xs)

/-- `align_runs` for one primary run: `none` models the `continue` taken
when no monitor run qualifies. -/
def align (lrStarted : ℤ) (monitors : List MonRun) :
    Option (MonRun × List WinEntry) :=
  match monitors.filter (fun mr => mr.started ≤ lrStarted) with
  | [] => none
  | c :: cs =>
      let best := pyMaxByStarted c cs
      some (best, (sortByAbsd (windowEntries lrStarted best.samples)).take 3)

/-! ## Concrete scenario data -/

/-- Scenario A run: limits 1000, 1000, 500, 500 at elapsed 0, 5, 10, 15,
with deliberately heterogeneous raw spellings of the same quantities
(`"1000m"`/`"1"` and `"500m"`/`"0.5"`). -/
def scenarioA : List MSample :=
  [⟨0, "1000m", 1000⟩, ⟨5, "1", 1000⟩, ⟨10, "500m", 500⟩, ⟨15, "0.5", 500⟩]

/-- Two samples under the same positive limit, one with zero usage. -/
def c5samples : List VSample := [⟨0, 1000⟩, ⟨500, 1000⟩]

example : parse_cpu_to_milli "500m" = .ok 500 := by decide
example : parse_cpu_to_milli "0.5" = .ok 500 := by decide
example : parse_cpu_to_milli "" = .ok 0 := by decide
example : parse_cpu_to_milli "N/A" = .ok 0 := by decide
example : parse_cpu_to_milli "abc" = .ok 0 := by decide
example : parse_cpu_to_milli "1.5m" = .error () := by decide
example : parse_cpu_to_milli "m" = .error () := by decide
example : parse_cpu_to_milli "-5m" = .ok (-5) := by decide
example : parse_cpu_to_milli "1001m" = .ok 1001 := by decide
example : parse_cpu_to_milli "1.001" = .ok 1000 := by decide
example : parse_cpu_to_milli "285m" = .ok 285 := by decide
example : parse_cpu_to_milli "0.285" = .ok 285 := by decide
example : to_milli "0.5" = 0 := by decide
example : to_milli "500m" = 500 := by decide
example : to_milli "500mm" = 500 := by decide
example : parse_iso "2026-01-01T14:40:36.7415259+01:00" = some ⟨2026,1,1,14,40,36⟩ := by decide
example : parse_iso "garbage" = none := by decide
example : parse_iso "2024-02-30T00:00:00" = none := by decide
example : parse_iso "2024-2-29T1:2:3" = some ⟨2024,2,29,1,2,3⟩ := by decide
example : align 1000 [⟨1, 970, []⟩, ⟨2, 990, []⟩] = some (⟨2, 990, []⟩, []) := by decide
example : detectChanges [⟨0,"1000m",1000⟩,⟨5,"1",1000⟩,⟨10,"500m",500⟩,⟨15,"0.5",500⟩]
    = [⟨10, 1000, 500, -500⟩] := by decide
example : loopTicks 20 5 = [.sample 5, .sleep 5, .sample 10, .sleep 5, .sample 15, .sleep 5, .sample 20] := by decide
example : mainTrace 20 5 (some 2) false = [.sample 5, .sample 10, .persist 2 true, .teardown] := by decide
example : sortByAbsd [⟨3,3,⟨0,none⟩⟩, ⟨1,-1,⟨1,none⟩⟩, ⟨1,1,⟨2,none⟩⟩]
    = [⟨1,-1,⟨1,none⟩⟩, ⟨1,1,⟨2,none⟩⟩, ⟨3,3,⟨0,none⟩⟩] := by decide

/-! ## Helper lemmas -/

/-- The pairwise loop of `print_statistics` agrees with the zip-with-tail
formulation used by the spec. -/
theorem detectChanges_eq_specChanges :
    ∀ l : List MSample, detectChanges l = specChanges l
  | [] => rfl
  | [_] => rfl
  | a :: b :: rest => by
    have ih := detectChanges_eq_specChanges (b :: rest)
    simp only [detectChanges, specChanges, List.tail_cons, List.zip_cons_cons,
      List.filterMap_cons] at *
    split <;> simp_all

/-- The raw-string field plays no role in the projections change
detection reads. -/
theorem setRaw_limit_m (f : MSample → String) (x : MSample) :
    (setRaw f x).limit_m = x.limit_m := rfl

/-- The elapsed field is untouched by a raw-string rewrite. -/
theorem setRaw_elapsed (f : MSample → String) (x : MSample) :
    (setRaw f x).elapsed = x.elapsed := rfl

/-- Change detection reads only the parsed field: rewriting every raw
limit string leaves the events unchanged. -/
theorem detectChanges_map_setRaw (f : MSample → String) :
    ∀ l : List MSample, detectChanges (l.map (setRaw f)) = detectChanges l
  | [] => rfl
  | [_] => rfl
  | a :: b :: rest => by
    have ih := detectChanges_map_setRaw f (b :: rest)
    simp only [List.map_cons] at ih ⊢
    simp only [detectChanges, setRaw_limit_m, setRaw_elapsed, ih]

/-- The usage comprehension keeps exactly the samples with positive usage. -/
theorem usage_values_eq_filter :
    ∀ l : List VSample,
      usage_values l = (l.filter (fun s => 0 < s.usage_m)).map (·.usage_m)
  | [] => rfl
  | s :: rest => by
    have ih := usage_values_eq_filter rest
    by_cases h : 0 < s.usage_m <;>
      simp [usage_values, List.filter_cons, h, ih]

/-- The efficiency comprehension keeps exactly the samples with positive
limit and positive usage. -/
theorem efficiency_values_eq_filter :
    ∀ l : List VSample,
      efficiency_values l
        = (l.filter (fun s => 0 < s.limit_m ∧ 0 < s.usage_m)).map
            (fun s => (s.usage_m : ℚ) / (s.limit_m : ℚ) * 100)
  | [] => rfl
  | s :: rest => by
    have ih := efficiency_values_eq_filter rest
    by_cases h : 0 < s.limit_m ∧ 0 < s.usage_m <;>
      simp [efficiency_values, List.filter_cons, h, ih]

/-! ## Claim theorems -/

/-- C1: the claim says the quantity parser never raises and returns a
nonnegative integer for every string. The code contradicts this intent:
the milli-suffix branch `int(cpu[:-1])` sits outside the `try`, so
`"1.5m"` and `"m"` raise an uncaught `ValueError`, and `"-5m"` parses to
the negative value −5; the graceful-zero path does hold for empty,
sentinel and garbage inputs. -/
theorem c1_quantity_parser_code_bug :
    parse_cpu_to_milli "1.5m" = .error ()
  ∧ parse_cpu_to_milli "m" = .error ()
  ∧ parse_cpu "1.5m" = .error ()
  ∧ parse_cpu_to_milli "-5m" = .ok (-5)
  ∧ (-5 : ℤ) < 0
  ∧ parse_cpu_to_milli "" = .ok 0
  ∧ parse_cpu_to_milli "N/A" = .ok 0
  ∧ parse_cpu_to_milli "abc" = .ok 0 := by
  refine ⟨by decide, by decide, by decide, by decide, by decide,
    by decide, by decide, by decide⟩

/-- C2: change detection iterates samples pairwise in order, emits an
event exactly when the parsed milli-unit limits of consecutive samples
differ (never comparing raw strings, so differently formatted spellings
of one quantity are no change), and on scenario A — limits
1000, 1000, 500, 500 at times 0, 5, 10, 15 — yields exactly the event
`{time 10, from 1000, to 500, delta −500}` with `changeCount = 1` and
`firstChangeTime = 10`. -/
theorem c2_change_detection :
    (∀ l : List MSample, detectChanges l = specChanges l)
  ∧ (∀ (l : List MSample) (f : MSample → String),
      detectChanges (l.map (setRaw f)) = detectChanges l)
  ∧ parse_cpu_to_milli "1000m" = .ok 1000
  ∧ parse_cpu_to_milli "1" = .ok 1000
  ∧ parse_cpu_to_milli "500m" = .ok 500
  ∧ parse_cpu_to_milli "0.5" = .ok 500
  ∧ detectChanges scenarioA = [⟨10, 1000, 500, -500⟩]
  ∧ changeCount scenarioA = 1
  ∧ firstChangeTime scenarioA = some 10 :=
  ⟨detectChanges_eq_specChanges, fun l f => detectChanges_map_setRaw f l,
   by decide, by decide, by decide, by decide, by decide, by decide,
   by decide⟩

/-- C4: each efficiency metric equals the spec formula when its
denominator is positive, equals 0 when the denominator is non-positive
(so usage 400 with limit 0 gives overhead 0, no division error), and
overhead goes strictly negative — unclamped — whenever usage exceeds a
positive limit. -/
theorem c4_efficiency (u r l : ℚ) :
    (0 < r → (calculate_efficiency u r l).request_utilization_pct = u / r * 100)
  ∧ (r ≤ 0 → (calculate_efficiency u r l).request_utilization_pct = 0)
  ∧ (0 < l → (calculate_efficiency u r l).limit_utilization_pct = u / l * 100)
  ∧ (l ≤ 0 → (calculate_efficiency u r l).limit_utilization_pct = 0)
  ∧ (0 < l → (calculate_efficiency u r l).overhead_pct = (l - u) / l * 100)
  ∧ (l ≤ 0 → (calculate_efficiency u r l).overhead_pct = 0)
  ∧ (0 < l → l < u → (calculate_efficiency u r l).overhead_pct < 0) := by
  refine ⟨fun h => ?_, fun h => ?_, fun h => ?_, fun h => ?_, fun h => ?_,
    fun h => ?_, fun h h2 => ?_⟩
  · simp [calculate_efficiency, if_pos h]
  · simp [calculate_efficiency, if_neg (not_lt.mpr h)]
  · simp [calculate_efficiency, if_pos h]
  · simp [calculate_efficiency, if_neg (not_lt.mpr h)]
  · simp [calculate_efficiency, if_pos h]
  · simp [calculate_efficiency, if_neg (not_lt.mpr h)]
  · have : (calculate_efficiency u r l).overhead_pct = (l - u) / l * 100 := by
      simp [calculate_efficiency, if_pos h]
    rw [this]
    have hnum : l - u < 0 := by linarith
    have : (l - u) / l < 0 := div_neg_of_neg_of_pos hnum h
    nlinarith

/-- C4 witness: scenario D (usage 400, limit 0 gives overhead 0) and an
unclamped negative overhead at usage 1500 over limit 1000. -/
theorem c4_efficiency_witness :
    (calculate_efficiency 400 0 0).overhead_pct = 0
  ∧ (calculate_efficiency 1500 500 1000).overhead_pct < 0 := by
  obtain ⟨-, -, -, -, -, h6, -⟩ := c4_efficiency 400 0 0
  obtain ⟨-, -, -, -, -, -, g7⟩ := c4_efficiency 1500 500 1000
  exact ⟨h6 le_rfl, g7 (by norm_num) (by norm_num)⟩

/-- C5 counterexample: on two samples with limit 1000 and usages 0 and
500, the code's utilization list is `[50]` — the zero-usage sample with a
positive denominator is excluded, against the claim's `[0, 50]` (mean 50
versus the claim's 25). -/
theorem c5_counterexample :
    efficiency_values c5samples = [50]
  ∧ specUtilValues c5samples = [0, 50]
  ∧ avgQ (efficiency_values c5samples) = some 50
  ∧ avgQ (specUtilValues c5samples) = some 25
  ∧ efficiency_values c5samples ≠ specUtilValues c5samples := by
  have h1 : efficiency_values c5samples = [50] := by
    norm_num [c5samples, efficiency_values]
  have h2 : specUtilValues c5samples = [0, 50] := by
    norm_num [c5samples, specUtilValues, List.filter]
  refine ⟨h1, h2, ?_, ?_, ?_⟩
  · rw [h1]
    have hne : ([50] : List ℚ) ≠ [] := by simp
    simp only [avgQ, if_neg hne]
    norm_num
  · rw [h2]
    have hne : ([0, 50] : List ℚ) ≠ [] := by simp
    simp only [avgQ, if_neg hne]
    norm_num
  · rw [h1, h2]; simp

/-- C5 amended: the run-level aggregates are computed over exactly the
samples the comprehensions keep — usage statistics over samples with
positive usage, utilization statistics over samples with positive limit
AND positive usage; a zero-usage sample is excluded from the utilization
aggregate even when its denominator is positive. -/
theorem c5_stats_amended (l : List VSample) :
    usage_values l = (l.filter (fun s => 0 < s.usage_m)).map (·.usage_m)
  ∧ efficiency_values l
      = (l.filter (fun s => 0 < s.limit_m ∧ 0 < s.usage_m)).map
          (fun s => (s.usage_m : ℚ) / (s.limit_m : ℚ) * 100) :=
  ⟨usage_values_eq_filter l, efficiency_values_eq_filter l⟩

/-- C9 counterexample: `"1001m"` and `"1.001"` denote the same quantity,
but binary64 rounding makes the decimal form parse to 1000 while the
milli-suffixed form parses to 1001. -/
theorem c9_counterexample :
    parse_cpu_to_milli "1001m" = .ok 1001
  ∧ parse_cpu_to_milli "1.001" = .ok 1000 := by
  refine ⟨by decide, by decide⟩

/-- C9 amended: `"500m"` and `"0.5"` (scenario B) both parse to 500 in
both trackers, and likewise for other exactly-representable decimals such
as `"0.25"`; the equivalence is not universal, failing for pairs like
`"1001m"`/`"1.001"` where double-precision rounding loses one milli-unit. -/
theorem c9_amended :
    parse_cpu_to_milli "500m" = .ok 500
  ∧ parse_cpu_to_milli "0.5" = .ok 500
  ∧ parse_cpu "500m" = .ok 500
  ∧ parse_cpu "0.5" = .ok 500
  ∧ parse_cpu_to_milli "250m" = .ok 250
  ∧ parse_cpu_to_milli "0.25" = .ok 250 := by
  refine ⟨by decide, by decide, by decide, by decide, by decide, by decide⟩

/-- C10: the inspector's ranking helper `to_milli` returns 0 for every
string that is not an integer after stripping trailing `m`s; in
particular `to_milli "0.5" = 0` while the trackers parse `"0.5"` to 500,
so the two quantity parsers disagree on whole-unit decimals. -/
theorem c10_to_milli (s : String)
    (h : pyIntOfStr (String.mk (rstripM s.data)) = none) :
    to_milli s = 0
  ∧ to_milli "0.5" = 0
  ∧ parse_cpu_to_milli "0.5" = .ok 500
  ∧ (to_milli "0.5" : ℤ) ≠ 500 := by
  refine ⟨?_, by decide, by decide, by decide⟩
  simp [to_milli, h]

/-- C10 witness: instantiated at the whole-unit decimal `"0.5"`. -/
theorem c10_to_milli_witness :
    pyIntOfStr (String.mk (rstripM "0.5".data)) = none ∧ to_milli "0.5" = 0 :=
  ⟨by decide, (c10_to_milli "0.5" (by decide)).1⟩

/-- The index/remaining recursion of the sampling loop produces the
interleaved trace of the elapsed sequence starting at index `i`. -/
theorem loopTicksAux_eq (v : ℕ) : ∀ (r i : ℕ),
    loopTicksAux v i r = sampleTrace v ((List.range' (i + 1) r).map (· * v))
  | 0, _ => rfl
  | r + 1, i => by
    have ih := loopTicksAux_eq v r (i + 1)
    cases r with
    | zero => simp [loopTicksAux, sampleTrace, List.range']
    | succ r' =>
      simp only [loopTicksAux, Nat.succ_ne_zero, if_neg, List.range',
        List.map_cons] at ih ⊢
      rw [ih]
      rfl

/-- The elapsed-value list written with `range'`. -/
theorem samplesList_eq_range' (d v : ℕ) :
    samplesList d v = (List.range' 1 (d / v)).map (· * v) := by
  simp only [samplesList, List.range'_eq_map_range, List.map_map]
  exact List.map_congr_left (fun i _ => by simp [Nat.add_comm])

/-- Without an interrupt the collection loop gathers every sample. -/
theorem collectLoop_none (v : ℕ) : ∀ (r i : ℕ),
    collectLoop v none i r = (List.range' (i + 1) r).map (· * v)
  | 0, _ => rfl
  | r + 1, i => by
    have ih := collectLoop_none v r (i + 1)
    simp [collectLoop, List.range', ih]

/-- An interrupt during iteration `j` truncates the collection to the
samples of the iterations before `j`. -/
theorem collectLoop_some (v j : ℕ) : ∀ (r i : ℕ), i ≤ j →
    collectLoop v (some j) i r
      = ((List.range' (i + 1) r).map (· * v)).take (j - i)
  | 0, i, _ => by simp [collectLoop]
  | r + 1, i, h => by
    rcases Nat.eq_or_lt_of_le h with rfl | hlt
    · simp [collectLoop, Nat.sub_self]
    · have ih := collectLoop_some v j r (i + 1) hlt
      have hne : ¬((some j : Option ℕ) = some i) := by simp [hlt.ne']
      have hji : j - i = (j - (i + 1)) + 1 := by omega
      simp only [collectLoop, if_neg hne, List.range', List.map_cons, ih,
        hji, List.take_succ_cons]

/-- Whatever the interrupt, the collected samples are a prefix of the full
elapsed sequence. -/
theorem collected_eq (d v : ℕ) (intr : Option ℕ) :
    collectLoop v intr 0 (d / v)
      = (samplesList d v).take (intr.getD (d / v)) := by
  cases intr with
  | none =>
    rw [collectLoop_none, samplesList_eq_range', Option.getD_none]
    rw [List.take_of_length_le (by simp)]
  | some j =>
    rw [collectLoop_some v j (d / v) 0 (Nat.zero_le j),
      samplesList_eq_range', Option.getD_some, Nat.sub_zero]

/-- In a trace of the shape `A ++ persist :: tail` with no teardown in
`A`, any split at a teardown puts the persist event strictly before it. -/
theorem persist_mem_of_teardown_split (p : ℕ) :
    ∀ (A tail pre post : List MainEv), MainEv.teardown ∉ A →
      A ++ MainEv.persist p true :: tail = pre ++ MainEv.teardown :: post →
      MainEv.persist p true ∈ pre
  | [], tail, pre, post, _, h => by
    cases pre with
    | nil =>
      rw [List.nil_append, List.nil_append] at h
      injection h with h1 _
      exact absurd h1 (by simp)
    | cons x pre' =>
      rw [List.nil_append] at h
      injection h with h1 _
      subst h1
      exact List.mem_cons_self _ _
  | a :: A', tail, pre, post, hA, h => by
    cases pre with
    | nil =>
      rw [List.nil_append] at h
      injection h with h1 _
      exact absurd (h1 ▸ List.mem_cons_self a A') hA
    | cons x pre' =>
      injection h with h1 h2
      have hA' : MainEv.teardown ∉ A' := fun hm => hA (List.mem_cons_of_mem a hm)
      exact List.mem_cons_of_mem x
        (persist_mem_of_teardown_split p A' tail pre' post hA' h2)

/-- C6: with a positive interval `v`, the sampling loop performs exactly
`⌊duration / v⌋` iterations; the `i`-th appended sample has elapsed
`(i+1)·v`, so the elapsed values form a strictly increasing arithmetic
sequence with common difference `v`; and the trace interleaves exactly one
sleep between consecutive iterations with none after the last. -/
theorem c6_sampling (d v : ℕ) (hv : 0 < v) :
    (samplesList d v).length = d / v
  ∧ (∀ i (h : i < (samplesList d v).length), (samplesList d v)[i] = (i + 1) * v)
  ∧ (∀ i (h : i < (samplesList d v).length)
      (h' : i + 1 < (samplesList d v).length),
      (samplesList d v)[i + 1] = (samplesList d v)[i] + v)
  ∧ (∀ i (h : i < (samplesList d v).length)
      (h' : i + 1 < (samplesList d v).length),
      (samplesList d v)[i] < (samplesList d v)[i + 1])
  ∧ loopTicks d v = sampleTrace v (samplesList d v) := by
  have hget : ∀ i (h : i < (samplesList d v).length),
      (samplesList d v)[i] = (i + 1) * v := by
    intro i h
    simp [samplesList]
  refine ⟨by simp [samplesList], hget, ?_, ?_, ?_⟩
  · intro i h h'
    rw [hget i h, hget (i + 1) h']
    ring
  · intro i h h'
    rw [hget i h, hget (i + 1) h']
    have : (i + 1) * v < (i + 1) * v + v := Nat.lt_add_of_pos_right hv
    calc (i + 1) * v < (i + 1) * v + v := this
      _ = (i + 1 + 1) * v := by ring
  · rw [loopTicks, loopTicksAux_eq v (d / v) 0, samplesList_eq_range']

/-- C6 witness: duration 20, interval 5 — four iterations, elapsed
5, 10, 15, 20, sleeps only between iterations. -/
theorem c6_sampling_witness :
    (samplesList 20 5).length = 20 / 5
  ∧ loopTicks 20 5 = sampleTrace 5 (samplesList 20 5) :=
  ⟨(c6_sampling 20 5 (by decide)).1, (c6_sampling 20 5 (by decide)).2.2.2.2⟩

/-- C7: whether the loop completes or an interrupt cuts it short, the
trace is the collected samples (a prefix of the requested sequence),
then the persist event carrying the end timestamp and every collected
sample, then — only afterwards, and only when cleanup is enabled — the
teardown: teardown never precedes persistence and never prevents it. -/
theorem c7_persist_before_teardown (d v : ℕ) (intr : Option ℕ) (nc : Bool) :
    mainTrace d v intr nc
      = ((samplesList d v).take (intr.getD (d / v))).map MainEv.sample
        ++ MainEv.persist ((samplesList d v).take (intr.getD (d / v))).length
            true
        :: (if nc then [] else [MainEv.teardown])
  ∧ MainEv.persist ((samplesList d v).take (intr.getD (d / v))).length true
      ∈ mainTrace d v intr nc
  ∧ ((samplesList d v).take (intr.getD (d / v))).length ≤ d / v
  ∧ (∀ pre post, mainTrace d v intr nc = pre ++ MainEv.teardown :: post →
      MainEv.persist ((samplesList d v).take (intr.getD (d / v))).length true
        ∈ pre) := by
  have htr : mainTrace d v intr nc
      = ((samplesList d v).take (intr.getD (d / v))).map MainEv.sample
        ++ MainEv.persist ((samplesList d v).take (intr.getD (d / v))).length
            true
        :: (if nc then [] else [MainEv.teardown]) := by
    simp only [mainTrace, collected_eq]
  refine ⟨htr, ?_, ?_, ?_⟩
  · rw [htr]
    exact List.mem_append_right _ (List.mem_cons_self _ _)
  · have := List.length_take_le (intr.getD (d / v)) (samplesList d v)
    have hlen : (samplesList d v).length = d / v := by simp [samplesList]
    simp only [List.length_take, hlen] at *
    omega
  · intro pre post h
    rw [htr] at h
    refine persist_mem_of_teardown_split _ _ _ pre post ?_ h
    intro hm
    rcases List.mem_map.1 hm with ⟨x, -, hx⟩
    exact MainEv.noConfusion hx

/-- C7 witness: duration 20, interval 5, interrupt during iteration 2,
cleanup enabled — two samples persist before the teardown. -/
theorem c7_persist_witness :
    MainEv.persist ((samplesList 20 5).take ((some 2).getD (20 / 5))).length
      true ∈ mainTrace 20 5 (some 2) false
  ∧ MainEv.persist ((samplesList 20 5).take ((some 2).getD (20 / 5))).length
      true ∈ [MainEv.sample 5, MainEv.sample 10, MainEv.persist 2 true] := by
  have h := c7_persist_before_teardown 20 5 (some 2) false
  refine ⟨h.2.1, ?_⟩
  exact h.2.2.2 [MainEv.sample 5, MainEv.sample 10, MainEv.persist 2 true] []
    (by decide)

/-- Membership in a stable insertion. -/
theorem mem_insertByAbsd {z x : WinEntry} :
    ∀ {l : List WinEntry}, z ∈ insertByAbsd x l ↔ z = x ∨ z ∈ l
  | [] => by simp [insertByAbsd]
  | y :: ys => by
    by_cases h : x.absd ≤ y.absd
    · simp [insertByAbsd, h, mem_insertByAbsd (l := ys)]
    · simp [insertByAbsd, h, mem_insertByAbsd (l := ys)]
      tauto

/-- The stable sort permutes membership only. -/
theorem mem_sortByAbsd {z : WinEntry} :
    ∀ {l : List WinEntry}, z ∈ sortByAbsd l ↔ z ∈ l
  | [] => Iff.rfl
  | x :: xs => by
    simp [sortByAbsd, mem_insertByAbsd, mem_sortByAbsd (l := xs)]

/-- Insertion keeps the list sorted by absolute delta. -/
theorem insertByAbsd_pairwise (x : WinEntry) :
    ∀ l : List WinEntry, l.Pairwise (fun a b => a.absd ≤ b.absd) →
      (insertByAbsd x l).Pairwise (fun a b => a.absd ≤ b.absd)
  | [], _ => by simp [insertByAbsd]
  | y :: ys, hl => by
    rw [List.pairwise_cons] at hl
    obtain ⟨hy, hys⟩ := hl
    by_cases h : x.absd ≤ y.absd
    · simp only [insertByAbsd, if_pos h]
      refine List.Pairwise.cons ?_ (List.Pairwise.cons hy hys)
      intro z hz
      rcases List.mem_cons.1 hz with rfl | hz'
      · exact h
      · exact le_trans h (hy z hz')
    · simp only [insertByAbsd, if_neg h]
      refine List.Pairwise.cons ?_ (insertByAbsd_pairwise x ys hys)
      intro z hz
      rcases mem_insertByAbsd.1 hz with rfl | hz'
      · exact le_of_lt (lt_of_not_le h)
      · exact hy z hz'

/-- The stable sort is sorted by absolute delta. -/
theorem sortByAbsd_pairwise :
    ∀ l : List WinEntry,
      (sortByAbsd l).Pairwise (fun a b => a.absd ≤ b.absd)
  | [] => List.Pairwise.nil
  | x :: xs => insertByAbsd_pairwise x (sortByAbsd xs) (sortByAbsd_pairwise xs)

/-- Stability of the insertion: inserting an element that precedes the
whole list in the input order places equal keys after it only. -/
theorem insertByAbsd_pairwise_stable (x : WinEntry) :
    ∀ l : List WinEntry,
      l.Pairwise (fun a b =>
        a.absd < b.absd ∨ (a.absd = b.absd ∧ a.delta ≤ b.delta)) →
      (∀ y ∈ l, x.delta ≤ y.delta) →
      (insertByAbsd x l).Pairwise (fun a b =>
        a.absd < b.absd ∨ (a.absd = b.absd ∧ a.delta ≤ b.delta))
  | [], _, _ => by simp [insertByAbsd]
  | y :: ys, hl, hx => by
    rw [List.pairwise_cons] at hl
    obtain ⟨hy, hys⟩ := hl
    by_cases h : x.absd ≤ y.absd
    · simp only [insertByAbsd, if_pos h]
      refine List.Pairwise.cons ?_ (List.Pairwise.cons hy hys)
      intro z hz
      have hxz : x.absd ≤ z.absd := by
        rcases List.mem_cons.1 hz with rfl | hz'
        · exact h
        · rcases hy z hz' with hlt | ⟨heq, _⟩
          · exact le_trans h (le_of_lt hlt)
          · exact le_trans h (le_of_eq heq)
      rcases lt_or_eq_of_le hxz with hlt | heq
      · exact Or.inl hlt
      · exact Or.inr ⟨heq, hx z hz⟩
    · simp only [insertByAbsd, if_neg h]
      refine List.Pairwise.cons ?_
        (insertByAbsd_pairwise_stable x ys hys
          (fun y' hy' => hx y' (List.mem_cons_of_mem y hy')))
      intro z hz
      rcases mem_insertByAbsd.1 hz with rfl | hz'
      · exact Or.inl (lt_of_not_le h)
      · exact hy z hz'

/-- Stability of the sort: when the input is ordered by delta (ascending
timestamps), ties in absolute delta keep the earlier timestamp first. -/
theorem sortByAbsd_pairwise_stable :
    ∀ l : List WinEntry,
      l.Pairwise (fun a b => a.delta ≤ b.delta) →
      (sortByAbsd l).Pairwise (fun a b =>
        a.absd < b.absd ∨ (a.absd = b.absd ∧ a.delta ≤ b.delta))
  | [], _ => List.Pairwise.nil
  | x :: xs, h => by
    rw [List.pairwise_cons] at h
    obtain ⟨hx, hxs⟩ := h
    exact insertByAbsd_pairwise_stable x (sortByAbsd xs)
      (sortByAbsd_pairwise_stable xs hxs)
      (fun y hy => hx y (mem_sortByAbsd.1 hy))

/-- A sorted list relates every kept prefix element to every dropped one. -/
theorem pairwise_take_le_drop {R : WinEntry → WinEntry → Prop}
    (l : List WinEntry) (n : ℕ) (h : l.Pairwise R) :
    ∀ x ∈ l.take n, ∀ y ∈ l.drop n, R x y := by
  rw [← List.take_append_drop n l] at h
  exact (List.pairwise_append.1 h).2.2

/-- Python's `max` with a key returns a member of the list. -/
theorem pyMaxByStarted_mem :
    ∀ (cs : List MonRun) (c : MonRun), pyMaxByStarted c cs ∈ c :: cs
  | [], c => by simp [pyMaxByStarted]
  | y :: t, c => by
    have ih := pyMaxByStarted_mem t (if c.started < y.started then y else c)
    simp only [pyMaxByStarted, List.foldl_cons] at ih ⊢
    rcases List.mem_cons.1 ih with heq | hmem
    · rw [heq]
      by_cases hc : c.started < y.started
      · simp [hc]
      · simp [hc]
    · exact List.mem_cons_of_mem _ (List.mem_cons_of_mem _ hmem)

/-- Python's `max` with a key dominates every member of the list. -/
theorem pyMaxByStarted_le :
    ∀ (cs : List MonRun) (c x : MonRun),
      x ∈ c :: cs → x.started ≤ (pyMaxByStarted c cs).started
  | [], c, x, hx => by
    rcases List.mem_cons.1 hx with rfl | h
    · simp [pyMaxByStarted]
    · simp at h
  | y :: t, c, x, hx => by
    have ih := pyMaxByStarted_le t (if c.started < y.started then y else c)
    simp only [pyMaxByStarted, List.foldl_cons] at ih ⊢
    rcases List.mem_cons.1 hx with rfl | hx'
    · refine le_trans ?_ (ih _ (List.mem_cons_self _ _))
      by_cases hc : x.started < y.started
      · simp only [if_pos hc]
        exact le_of_lt hc
      · simp only [if_neg hc]
        exact le_rfl
    · rcases List.mem_cons.1 hx' with rfl | hx''
      · refine le_trans ?_ (ih _ (List.mem_cons_self _ _))
        by_cases hc : c.started < x.started
        · simp only [if_pos hc]
          exact le_rfl
        · simp only [if_neg hc]
          exact le_of_not_lt hc
      · exact ih x (List.mem_cons_of_mem _ hx'')

/-- `align` skips a primary exactly when every candidate started after it. -/
theorem align_eq_none_iff (T : ℤ) (runs : List MonRun) :
    align T runs = none ↔ ∀ mr ∈ runs, T < mr.started := by
  cases hf : runs.filter (fun mr => mr.started ≤ T) with
  | nil =>
    simp only [align, hf]
    constructor
    · intro _ mr hmr
      have hnot := List.filter_eq_nil_iff.1 hf mr hmr
      exact not_le.1 (by simpa using hnot)
    · intro _
      trivial
  | cons c cs =>
    simp only [align, hf]
    constructor
    · intro h
      exact absurd h (by simp)
    · intro hall
      exfalso
      have hc : c ∈ runs.filter (fun mr => mr.started ≤ T) := by
        rw [hf]; exact List.mem_cons_self c cs
      obtain ⟨hmem, hp⟩ := List.mem_filter.1 hc
      have hle : c.started ≤ T := by simpa using hp
      exact absurd hle (not_le.2 (hall c hmem))

/-- What a successful alignment returns: the first latest-started
qualifying candidate and the stably-sorted three-nearest window. -/
theorem align_some_spec (T : ℤ) (runs : List MonRun) (b : MonRun)
    (w : List WinEntry) (h : align T runs = some (b, w)) :
    b ∈ runs ∧ b.started ≤ T
      ∧ (∀ mr ∈ runs, mr.started ≤ T → mr.started ≤ b.started)
      ∧ w = (sortByAbsd (windowEntries T b.samples)).take 3 := by
  cases hf : runs.filter (fun mr => mr.started ≤ T) with
  | nil =>
    simp only [align, hf] at h
    exact Option.noConfusion h
  | cons c cs =>
    simp only [align, hf] at h
    injection h with h1
    injection h1 with hb hw
    subst hb
    subst hw
    have hbmem : pyMaxByStarted c cs ∈ c :: cs := pyMaxByStarted_mem cs c
    have hbfil : pyMaxByStarted c cs ∈
        runs.filter (fun mr => mr.started ≤ T) := by
      rw [hf]; exact hbmem
    obtain ⟨hbruns, hbp⟩ := List.mem_filter.1 hbfil
    refine ⟨hbruns, by simpa using hbp, ?_, rfl⟩
    intro mr hmr hle
    have hmrf : mr ∈ runs.filter (fun mr => mr.started ≤ T) :=
      List.mem_filter.2 ⟨hmr, by simpa⟩
    rw [hf] at hmrf
    exact pyMaxByStarted_le cs c mr hmrf

/-- C3: alignment considers only candidates started no later than the
primary, returns none exactly when no candidate qualifies, picks a
qualifying candidate with the latest start, and returns at most three
window entries — drawn from the candidate's parseable samples, sorted
ascending by absolute delta, no kept entry farther than any dropped one,
with ties kept in ascending-timestamp order when the candidate's samples
are time-ordered; a primary started at 1000 with candidates started at
970 and 990 aligns to the 990 candidate. -/
theorem c3_align (T : ℤ) (runs : List MonRun) :
    (align T runs = none ↔ ∀ mr ∈ runs, T < mr.started)
  ∧ (∀ b w, align T runs = some (b, w) →
      b ∈ runs ∧ b.started ≤ T
        ∧ ∀ mr ∈ runs, mr.started ≤ T → mr.started ≤ b.started)
  ∧ (∀ b w, align T runs = some (b, w) →
      w = (sortByAbsd (windowEntries T b.samples)).take 3
      ∧ w.length ≤ 3
      ∧ w.Pairwise (fun x y => x.absd ≤ y.absd)
      ∧ (∀ x ∈ w, x ∈ windowEntries T b.samples)
      ∧ (∀ x ∈ w, ∀ y ∈ (sortByAbsd (windowEntries T b.samples)).drop 3,
          x.absd ≤ y.absd))
  ∧ (∀ b w, align T runs = some (b, w) →
      (windowEntries T b.samples).Pairwise (fun x y => x.delta ≤ y.delta) →
      w.Pairwise (fun x y =>
        x.absd < y.absd ∨ (x.absd = y.absd ∧ x.delta ≤ y.delta)))
  ∧ align 1000 [⟨1, 970, []⟩, ⟨2, 990, []⟩] = some (⟨2, 990, []⟩, []) := by
  refine ⟨align_eq_none_iff T runs, ?_, ?_, ?_, by decide⟩
  · intro b w h
    obtain ⟨h1, h2, h3, -⟩ := align_some_spec T runs b w h
    exact ⟨h1, h2, h3⟩
  · intro b w h
    obtain ⟨-, -, -, hw⟩ := align_some_spec T runs b w h
    subst hw
    refine ⟨rfl, List.length_take_le _ _, ?_, ?_, ?_⟩
    · exact List.Pairwise.sublist (List.take_sublist _ _)
        (sortByAbsd_pairwise _)
    · intro x hx
      exact mem_sortByAbsd.1 (List.mem_of_mem_take hx)
    · intro x hx y hy
      exact pairwise_take_le_drop _ 3 (sortByAbsd_pairwise _) x hx y hy
  · intro b w h hdelta
    obtain ⟨-, -, -, hw⟩ := align_some_spec T runs b w h
    subst hw
    exact List.Pairwise.sublist (List.take_sublist _ _)
      (sortByAbsd_pairwise_stable _ hdelta)

/-- C3 witness: the selected candidate is a member that started no later
than the primary, and an equal-distance window keeps the earlier
timestamp first. -/
theorem c3_align_witness :
    ((⟨2, 990, []⟩ : MonRun) ∈ [(⟨1, 970, []⟩ : MonRun), ⟨2, 990, []⟩]
      ∧ (990 : ℤ) ≤ 1000)
  ∧ ([⟨5, -5, ⟨0, some 995⟩⟩, ⟨5, 5, ⟨1, some 1005⟩⟩] : List WinEntry).Pairwise
      (fun x y => x.absd < y.absd ∨ (x.absd = y.absd ∧ x.delta ≤ y.delta)) := by
  constructor
  · have h := (c3_align 1000 [⟨1, 970, []⟩, ⟨2, 990, []⟩]).2.1 ⟨2, 990, []⟩ []
      (by decide)
    exact ⟨h.1, h.2.1⟩
  · exact (c3_align 1000 [⟨3, 990, [⟨0, some 995⟩, ⟨1, some 1005⟩]⟩]).2.2.2.1
      ⟨3, 990, [⟨0, some 995⟩, ⟨1, some 1005⟩]⟩
      [⟨5, -5, ⟨0, some 995⟩⟩, ⟨5, 5, ⟨1, some 1005⟩⟩]
      (by decide) (by decide)

/-- Sequential truncation at `+` then at `.` equals the spec's single
truncation at whichever marker comes first. -/
theorem splitHead_splitHead : ∀ l : List Char,
    splitHead '.' (splitHead '+' l) = specTruncate l
  | [] => rfl
  | c :: t => by
    have ih := splitHead_splitHead t
    simp only [splitHead, specTruncate, List.takeWhile_cons] at ih ⊢
    by_cases h1 : c = '+'
    · subst h1
      simp
    · by_cases h2 : c = '.'
      · subst h2
        simp
      · simp [h1, h2, ih]

/-- The maximal digit prefix is a digit string. -/
theorem digitStr_takeWhile (l : List Char) :
    DigitStr (l.takeWhile isDigitC) :=
  fun _ hc => List.mem_takeWhile_imp hc

/-- After dropping the maximal digit prefix the next character, if any,
is not a digit. -/
theorem isDigit_head_dropWhile (l : List Char) :
    ∀ c, (l.dropWhile isDigitC).head? = some c → isDigitC c = false := by
  intro c hc
  have h := List.head?_dropWhile_not isDigitC l
  rw [hc] at h
  exact h

/-- A digit string followed by a non-digit boundary is exactly what the
maximal-munch reader consumes. -/
theorem takeWhile_digits_append : ∀ (a b : List Char), DigitStr a →
    (∀ c, b.head? = some c → isDigitC c = false) →
    (a ++ b).takeWhile isDigitC = a ∧ (a ++ b).dropWhile isDigitC = b
  | [], b, _, hb => by
    cases b with
    | nil => exact ⟨rfl, rfl⟩
    | cons x t =>
      have hx : isDigitC x = false := hb x rfl
      constructor
      · simp [List.takeWhile_cons, hx]
      · simp [List.dropWhile_cons, hx]
  | d :: a', b, ha, hb => by
    have hd : isDigitC d = true := ha d (List.mem_cons_self _ _)
    have ih := takeWhile_digits_append a' b
      (fun c hc => ha c (List.mem_cons_of_mem _ hc)) hb
    constructor
    · simp [List.takeWhile_cons, hd, ih.1]
    · simp [List.dropWhile_cons, hd, ih.2]

/-- Characterisation of the year reader. -/
theorem readYear_eq_some_iff (l : List Char) (y : ℕ) (r : List Char) :
    readYear l = some (y, r) ↔
      ∃ ds, l = ds ++ r ∧ DigitStr ds ∧ ds.length = 4 ∧ valOf ds = y
        ∧ 1 ≤ y ∧ (∀ c, r.head? = some c → isDigitC c = false) := by
  constructor
  · intro h
    simp only [readYear] at h
    split at h
    · rename_i hcond
      injection h with h'
      injection h' with hy hr
      subst hy
      subst hr
      exact ⟨l.takeWhile isDigitC, (List.takeWhile_append_dropWhile _ _).symm,
        digitStr_takeWhile l, hcond.1, rfl, hcond.2, isDigit_head_dropWhile l⟩
    · exact Option.noConfusion h
  · rintro ⟨ds, rfl, hds, hlen, hval, h1, hr⟩
    obtain ⟨htw, hdw⟩ := takeWhile_digits_append ds r hds hr
    simp only [readYear, htw, hdw]
    rw [if_pos ⟨hlen, by rw [hval]; exact h1⟩, hval]

/-- Characterisation of the bounded 1-2 digit field reader. -/
theorem readNum2_eq_some_iff (lo hi : ℕ) (l : List Char) (v : ℕ)
    (r : List Char) :
    readNum2 lo hi l = some (v, r) ↔
      ∃ ds, l = ds ++ r ∧ DigitStr ds ∧ 1 ≤ ds.length ∧ ds.length ≤ 2
        ∧ valOf ds = v ∧ lo ≤ v ∧ v ≤ hi
        ∧ (∀ c, r.head? = some c → isDigitC c = false) := by
  constructor
  · intro h
    simp only [readNum2] at h
    split at h
    · rename_i hcond
      injection h with h'
      injection h' with hy hr
      subst hy
      subst hr
      exact ⟨l.takeWhile isDigitC, (List.takeWhile_append_dropWhile _ _).symm,
        digitStr_takeWhile l, hcond.1, hcond.2.1, rfl, hcond.2.2.1,
        hcond.2.2.2, isDigit_head_dropWhile l⟩
    · exact Option.noConfusion h
  · rintro ⟨ds, rfl, hds, hlen1, hlen2, hval, hlo, hhi, hr⟩
    obtain ⟨htw, hdw⟩ := takeWhile_digits_append ds r hds hr
    simp only [readNum2, htw, hdw]
    rw [if_pos ⟨hlen1, hlen2, by rw [hval]; exact hlo,
      by rw [hval]; exact hhi⟩, hval]

/-- Characterisation of a literal separator. -/
theorem expectChar_eq_some (ch : Char) (l r : List Char) :
    expectChar ch l = some r ↔ l = ch :: r := by
  cases l with
  | nil => simp [expectChar]
  | cons x t =>
    simp only [expectChar]
    by_cases h : x = ch
    · subst h
      simp
    · rw [if_neg h]
      constructor
      · intro he
        exact Option.noConfusion he
      · intro he
        injection he with h1 _
        exact absurd h1 h

/-- Characterisation of the case-insensitive `T` separator. -/
theorem expectT_eq_some (l r : List Char) :
    expectT l = some r ↔ ∃ tc, (tc = 'T' ∨ tc = 't') ∧ l = tc :: r := by
  cases l with
  | nil => simp [expectT]
  | cons x t =>
    simp only [expectT]
    by_cases h : x = 'T' ∨ x = 't'
    · rw [if_pos h]
      constructor
      · intro he
        injection he with he
        subst he
        exact ⟨x, h, rfl⟩
      · rintro ⟨tc, htc, heq⟩
        injection heq with h1 h2
        subst h2
        rfl
    · rw [if_neg h]
      constructor
      · intro he
        exact Option.noConfusion he
      · rintro ⟨tc, htc, heq⟩
        injection heq with h1 _
        subst h1
        exact absurd htc h


/-- No month has more than 31 days. -/
theorem daysInMonth_le_31 (y m : ℕ) : daysInMonth y m ≤ 31 := by
  rw [daysInMonth]
  split
  · split <;> omega
  · split <;> omega

/-- The strptime model succeeds exactly on the strings of the
`YYYY-MM-DDTHH:MM:SS` shape, returning the denoted instant. -/
theorem strptimeYmdHms_eq_some_iff (l : List Char) (dt : PyDateTime) :
    strptimeYmdHms l = some dt ↔ SpecIsoShape l dt := by
  constructor
  · intro h
    unfold strptimeYmdHms at h
    simp only [Option.bind_eq_some] at h
    obtain ⟨⟨y, r1⟩, hy, h⟩ := h
    obtain ⟨r2, hc1, h⟩ := h
    obtain ⟨⟨mo, r3⟩, hmo, h⟩ := h
    obtain ⟨r4, hc2, h⟩ := h
    obtain ⟨⟨d, r5⟩, hd, h⟩ := h
    obtain ⟨r6, hT, h⟩ := h
    obtain ⟨⟨hrv, r7⟩, hhour, h⟩ := h
    obtain ⟨r8, hc3, h⟩ := h
    obtain ⟨⟨mi, r9⟩, hmin, h⟩ := h
    obtain ⟨r10, hc4, h⟩ := h
    obtain ⟨⟨se, r11⟩, hsec, h⟩ := h
    dsimp only at h
    split at h
    · rename_i hcond
      obtain ⟨hr11, hday⟩ := hcond
      subst hr11
      injection h with hdt
      obtain ⟨ys, hl, hys, hyslen, hysval, hy1, -⟩ :=
        (readYear_eq_some_iff l y r1).1 hy
      rw [expectChar_eq_some] at hc1 hc2 hc3 hc4
      dsimp only at hc1 hc2 hc3 hc4
      obtain ⟨ms, hr2, hms, hms1, hms2, hmsval, hmo1, hmo2, -⟩ :=
        (readNum2_eq_some_iff 1 12 r2 mo r3).1 hmo
      obtain ⟨dss, hr4, hdss, hds1, hds2, hdsval, hd1, hd2, -⟩ :=
        (readNum2_eq_some_iff 1 31 r4 d r5).1 hd
      obtain ⟨tc, htc, hr5⟩ := (expectT_eq_some r5 r6).1 hT
      obtain ⟨hss, hr6, hhs, hhs1, hhs2, hhsval, -, hh2, -⟩ :=
        (readNum2_eq_some_iff 0 23 r6 hrv r7).1 hhour
      obtain ⟨miss, hr8, hmis, hmis1, hmis2, hmisval, -, hmi2, -⟩ :=
        (readNum2_eq_some_iff 0 59 r8 mi r9).1 hmin
      obtain ⟨sess, hr10, hses, hses1, hses2, hsesval, -, hse2, -⟩ :=
        (readNum2_eq_some_iff 0 59 r10 se []).1 hsec
      have hleq : l = ys ++ ('-' :: (ms ++ ('-' :: (dss ++ (tc :: (hss
          ++ (':' :: (miss ++ (':' :: sess))))))))) := by
        rw [hl, hc1, hr2, hc2, hr4, hr5, hr6, hc3, hr8, hc4, hr10,
          List.append_nil]
      have hdtval : dt = ⟨valOf ys, valOf ms, valOf dss, valOf hss,
          valOf miss, valOf sess⟩ := by
        rw [← hdt, hysval, hmsval, hdsval, hhsval, hmisval, hsesval]
      refine ⟨ys, ms, dss, hss, miss, sess, tc, hleq, htc, hys, hyslen,
        hms, hms1, hms2, hdss, hds1, hds2, hhs, hhs1, hhs2, hmis, hmis1,
        hmis2, hses, hses1, hses2, hdtval, ?_, ?_, ?_, ?_, ?_, ?_, ?_, ?_⟩
      · rw [← hdt]; exact hy1
      · rw [← hdt]; exact hmo1
      · rw [← hdt]; exact hmo2
      · rw [← hdt]; exact hd1
      · rw [← hdt]; exact hday
      · rw [← hdt]; exact hh2
      · rw [← hdt]; exact hmi2
      · rw [← hdt]; exact hse2
    · exact Option.noConfusion h
  · rintro ⟨ys, ms, dss, hss, miss, sess, tc, hleq, htc, hys, hyslen,
      hms, hms1, hms2, hdss, hds1, hds2, hhs, hhs1, hhs2, hmis, hmis1,
      hmis2, hses, hses1, hses2, hdtval, hy1, hmo1, hmo2, hd1, hday, hh2,
      hmi2, hse2⟩
    subst hdtval
    subst hleq
    have htcnd : isDigitC tc = false := by
      rcases htc with rfl | rfl <;> decide
    have hy1' : 1 ≤ valOf ys := hy1
    have hmo1' : 1 ≤ valOf ms := hmo1
    have hmo2' : valOf ms ≤ 12 := hmo2
    have hd1' : 1 ≤ valOf dss := hd1
    have hday' : valOf dss ≤ daysInMonth (valOf ys) (valOf ms) := hday
    have hh2' : valOf hss ≤ 23 := hh2
    have hmi2' : valOf miss ≤ 59 := hmi2
    have hse2' : valOf sess ≤ 59 := hse2
    have h1 : readYear (ys ++ ('-' :: (ms ++ ('-' :: (dss ++ (tc :: (hss
        ++ (':' :: (miss ++ (':' :: sess))))))))))
        = some (valOf ys, '-' :: (ms ++ ('-' :: (dss ++ (tc :: (hss
        ++ (':' :: (miss ++ (':' :: sess))))))))) :=
      (readYear_eq_some_iff _ _ _).2 ⟨ys, rfl, hys, hyslen, rfl, hy1',
        fun c hc => by
          simp only [List.head?_cons, Option.some.injEq] at hc
          subst hc
          decide⟩
    have h2 : expectChar '-' ('-' :: (ms ++ ('-' :: (dss ++ (tc :: (hss
        ++ (':' :: (miss ++ (':' :: sess)))))))))
        = some (ms ++ ('-' :: (dss ++ (tc :: (hss ++ (':' :: (miss
        ++ (':' :: sess)))))))) := by
      simp [expectChar]
    have h3 : readNum2 1 12 (ms ++ ('-' :: (dss ++ (tc :: (hss ++ (':'
        :: (miss ++ (':' :: sess))))))))
        = some (valOf ms, '-' :: (dss ++ (tc :: (hss ++ (':' :: (miss
        ++ (':' :: sess))))))) :=
      (readNum2_eq_some_iff _ _ _ _ _).2 ⟨ms, rfl, hms, hms1, hms2, rfl,
        hmo1', hmo2', fun c hc => by
          simp only [List.head?_cons, Option.some.injEq] at hc
          subst hc
          decide⟩
    have h4 : expectChar '-' ('-' :: (dss ++ (tc :: (hss ++ (':' :: (miss
        ++ (':' :: sess)))))))
        = some (dss ++ (tc :: (hss ++ (':' :: (miss ++ (':' :: sess)))))) := by
      simp [expectChar]
    have h5 : readNum2 1 31 (dss ++ (tc :: (hss ++ (':' :: (miss ++ (':'
        :: sess))))))
        = some (valOf dss, tc :: (hss ++ (':' :: (miss ++ (':' :: sess))))) :=
      (readNum2_eq_some_iff _ _ _ _ _).2 ⟨dss, rfl, hdss, hds1, hds2, rfl,
        hd1', le_trans hday' (daysInMonth_le_31 _ _), fun c hc => by
          simp only [List.head?_cons, Option.some.injEq] at hc
          subst hc
          exact htcnd⟩
    have h6 : expectT (tc :: (hss ++ (':' :: (miss ++ (':' :: sess)))))
        = some (hss ++ (':' :: (miss ++ (':' :: sess)))) :=
      (expectT_eq_some _ _).2 ⟨tc, htc, rfl⟩
    have h7 : readNum2 0 23 (hss ++ (':' :: (miss ++ (':' :: sess))))
        = some (valOf hss, ':' :: (miss ++ (':' :: sess))) :=
      (readNum2_eq_some_iff _ _ _ _ _).2 ⟨hss, rfl, hhs, hhs1, hhs2, rfl,
        Nat.zero_le _, hh2', fun c hc => by
          simp only [List.head?_cons, Option.some.injEq] at hc
          subst hc
          decide⟩
    have h8 : expectChar ':' (':' :: (miss ++ (':' :: sess)))
        = some (miss ++ (':' :: sess)) := by
      simp [expectChar]
    have h9 : readNum2 0 59 (miss ++ (':' :: sess))
        = some (valOf miss, ':' :: sess) :=
      (readNum2_eq_some_iff _ _ _ _ _).2 ⟨miss, rfl, hmis, hmis1, hmis2,
        rfl, Nat.zero_le _, hmi2', fun c hc => by
          simp only [List.head?_cons, Option.some.injEq] at hc
          subst hc
          decide⟩
    have h10 : expectChar ':' (':' :: sess) = some sess := by
      simp [expectChar]
    have h11 : readNum2 0 59 sess = some (valOf sess, ([] : List Char)) :=
      (readNum2_eq_some_iff _ _ _ _ _).2 ⟨sess, (List.append_nil sess).symm,
        hses, hses1, hses2, rfl, Nat.zero_le _, hse2',
        fun c hc => absurd hc (by simp)⟩
    unfold strptimeYmdHms
    simp only [h1, h2, h3, h4, h5, h6, h7, h8, h9, h10, h11,
      Option.some_bind]
    rw [if_pos ⟨trivial, hday'⟩]

/-- C8: the timestamp parser truncates everything after the first literal
`+` and first literal `.` (the sequential split order is immaterial), and
on the truncated remainder it succeeds exactly on strings matching the
`YYYY-MM-DDTHH:MM:SS` pattern — digit groups of the right widths, in
range, forming a valid calendar date — returning the denoted instant, and
fails on everything else. -/
theorem c8_parse_iso :
    (∀ ts : String, parse_iso ts = strptimeYmdHms (specTruncate ts.data))
  ∧ (∀ (ts : String) (dt : PyDateTime),
      parse_iso ts = some dt ↔ SpecIsoShape (specTruncate ts.data) dt) := by
  constructor
  · intro ts
    rw [parse_iso, splitHead_splitHead]
  · intro ts dt
    rw [parse_iso, splitHead_splitHead]
    exact strptimeYmdHms_eq_some_iff _ _
